import Mathlib

/-!
Verification of the 2048 bit-packed board engine and its AI players.

The definitions below are shallow embeddings of `src/board.py`,
`src/players.py` and `src/game.py`: 64-bit board states are modelled as
`Nat` (with explicit `< 2 ^ 64` domains where it matters), 16-bit rows as
`Nat`, the slide/merge algorithm, move simulation, empty-tile
enumeration, tile placement and scoring are translated function by
function, and the heuristic / expectimax evaluation (whose float weights
and intermediate values are integral, hence exact) is modelled over
`Int` and `ℚ`.
-/

namespace Game2048

/-- The `Action` enumeration from `board.py` (LEFT=0, RIGHT=1, UP=2, DOWN=3). -/
inductive Action where
  | LEFT
  | RIGHT
  | UP
  | DOWN
deriving DecidableEq, Repr

/-- `Action(value)` for `value < 4`, as used by `get_valid_move_actions`. -/
def Action.fromIdx : Nat → Action
  | 0 => .LEFT
  | 1 => .RIGHT
  | 2 => .UP
  | _ => .DOWN

/-- The index of an action inside the list returned by `simulate_moves`. -/
def Action.toIdx : Action → Nat
  | .LEFT => 0
  | .RIGHT => 1
  | .UP => 2
  | .DOWN => 3

namespace Board

/-- The merge scan of `Board._move_left` (`board.py` lines 59-81): the
`while` loop over the zero-filtered row; a merged pair is consumed
together (`skip`), and two adjacent 15-exponents are kept unmerged. -/
def mergeScan : List Nat → List Nat
  | a :: b :: rest =>
    if a = b then
      if a = 15 then a :: b :: mergeScan rest
      else (a + 1) :: mergeScan rest
    else a :: mergeScan (b :: rest)
  | l => l

/-- `Board._move_left` (`board.py` lines 54-82): filter out zeros, run the
merge scan, and pad the `result` with zeros back to length 4. -/
def move_left (row : List Nat) : List Nat :=
  let merged := mergeScan (row.filter (fun x => x ≠ 0))
  merged ++ List.replicate (4 - merged.length) 0

/-- `Board._move_right` (`board.py` lines 84-88): reverse, slide left,
reverse back. -/
def move_right (row : List Nat) : List Nat :=
  (move_left row.reverse).reverse

/-- The four nibbles of a 16-bit row, as extracted while building the
lookup tables (`board.py` lines 97-102). -/
def unpackRow (r : Nat) : List Nat :=
  [(r >>> 12) &&& 0xF, (r >>> 8) &&& 0xF, (r >>> 4) &&& 0xF, r &&& 0xF]

/-- Re-packing of a moved row into a 16-bit value (`board.py` line 104). -/
def packRow (l : List Nat) : Nat :=
  (l.getD 0 0 <<< 12) ||| (l.getD 1 0 <<< 8) ||| (l.getD 2 0 <<< 4) ||| l.getD 3 0

/-- Entry `r` of the `__left_moves` lookup table: the table is filled with
the packed `_move_left` of the unpacked row (`board.py` lines 96-105). -/
def row_left (r : Nat) : Nat := packRow (move_left (unpackRow r))

/-- Entry `r` of the `__right_moves` lookup table (`board.py` lines 107-109). -/
def row_right (r : Nat) : Nat := packRow (move_right (unpackRow r))

/-- The 16-bit row slice `i` of a 64-bit state (`board.py` lines 156, 163). -/
def rowAt (state i : Nat) : Nat := (state >>> (16 * i)) &&& 0xFFFF

/-- The LEFT/RIGHT half of `Board.simulate_moves` (`board.py` lines
154-160): accumulate each row's table result at its 16-bit offset. -/
def horizMove (table : Nat → Nat) (state : Nat) : Nat :=
  (List.range 4).foldl (fun acc i => acc ||| (table (rowAt state i) <<< (16 * i))) 0

/-- Column `col` collected into a synthetic 16-bit row value
(`board.py` lines 166-170). -/
def colValue (state col : Nat) : Nat :=
  (List.range 4).foldl
    (fun acc ri => acc ||| ((((rowAt state ri) >>> (4 * (3 - col))) &&& 0xF) <<< (4 * (3 - ri))))
    0

/-- Row `ri` of a vertical move result: the nibbles of the transformed
column values scattered back to their column positions
(`board.py` lines 171-177). -/
def vertRow (table : Nat → Nat) (state ri : Nat) : Nat :=
  (List.range 4).foldl
    (fun acc col =>
      acc ||| (((table (colValue state col) >>> (4 * (3 - ri))) &&& 0xF) <<< (4 * (3 - col))))
    0

/-- The UP/DOWN half of `Board.simulate_moves` (`board.py` lines 162-181). -/
def vertMove (table : Nat → Nat) (state : Nat) : Nat :=
  (List.range 4).foldl (fun acc ri => acc ||| (vertRow table state ri <<< (16 * ri))) 0

/-- `Board.simulate_moves` (`board.py` lines 148-183): UP uses the RIGHT
table, DOWN the LEFT table; result order `[LEFT, RIGHT, UP, DOWN]`. -/
def simulate_moves (state : Nat) : List Nat :=
  [horizMove row_left state, horizMove row_right state,
   vertMove row_right state, vertMove row_left state]

/-- `Board.get_valid_move_actions` (`board.py` lines 185-192): keep the
simulated states that differ from the input, tagged with `Action(index)`. -/
def get_valid_move_actions (state : Nat) : List (Action × Nat) :=
  (simulate_moves state).enum.filterMap
    (fun p => if p.2 ≠ state then some (Action.fromIdx p.1, p.2) else none)

/-- `Board.get_unpacked_state` (`board.py` lines 246-249): the 16 nibbles,
most significant first (`i` descends from 15 to 0). -/
def get_unpacked_state (state : Nat) : List Nat :=
  (List.range 16).map (fun j => (state >>> ((15 - j) * 4)) &&& 0xF)

/-- `Board.get_empty_tiles` (`board.py` lines 194-207), without the memo
cache (the cache stores and returns this very list). -/
def get_empty_tiles (state : Nat) : List (Nat × Nat) :=
  (get_unpacked_state state).enum.filterMap
    (fun p => if p.2 = 0 then some (p.1 / 4, p.1 % 4) else none)

/-- `Board.set_tile` (`board.py` lines 219-230) together with its
`__verify_state` / `__verify_row_col` / `__verify_value` checks; Python
`int` arguments are modelled as `Int` and raised exceptions as
`Except.error`. -/
def set_tile (state : Nat) (row col value : Int) : Except String Nat :=
  if 2 ^ 64 ≤ state then .error "Invalid state"
  else if row < 0 ∨ 3 < row ∨ col < 0 ∨ 3 < col then
    .error "Row and column must be between 0 and 3."
  else if value < 0 ∨ 15 < value then
    .error "Value must be between 0 and 15."
  else
    let i : Nat := (3 - row.toNat) * 4 + (3 - col.toNat)
    if (state >>> (i * 4)) &&& 0xF ≠ 0 then
      .error "Tile at given row and column is not empty."
    else .ok (state ||| (value.toNat <<< (i * 4)))

end Board

/-- `Game2048.get_score` (`game.py` lines 52-53): the sum of `2 ^ tile`
over the non-zero nibbles. -/
def get_score (state : Nat) : Nat :=
  (((Board.get_unpacked_state state).filter (fun t => 0 < t)).map (fun t => 2 ^ t)).sum

namespace Players

/-- `board[r * 4 + c]` on the unpacked 16-cell list (`players.py`). -/
def cell (s r c : Nat) : Nat := (Board.get_unpacked_state s).getD (r * 4 + c) 0

/-- `sum(1 for cell in board if cell == 0)` (`players.py` lines 58, 187). -/
def empty_cells (s : Nat) : Nat :=
  ((Board.get_unpacked_state s).filter (fun c => c = 0)).length

/-- The row monotonicity accumulator (`players.py` lines 189-192). -/
def row_monotonicity (s : Nat) : Int :=
  ((List.range 4).map (fun r =>
    |(cell s r 0 : Int) - (cell s r 1 : Int)| + |(cell s r 1 : Int) - (cell s r 2 : Int)|
      + |(cell s r 2 : Int) - (cell s r 3 : Int)|)).sum

/-- The column monotonicity accumulator (`players.py` lines 193-196). -/
def col_monotonicity (s : Nat) : Int :=
  ((List.range 4).map (fun c =>
    |(cell s 0 c : Int) - (cell s 1 c : Int)| + |(cell s 1 c : Int) - (cell s 2 c : Int)|
      + |(cell s 2 c : Int) - (cell s 3 c : Int)|)).sum

/-- `monotonicity = -(row_monotonicity + col_monotonicity)` (line 197). -/
def monotonicity (s : Nat) : Int := -(row_monotonicity s + col_monotonicity s)

/-- Smoothness (`players.py` lines 199-210): each non-empty cell is
penalised by the gap, in actual tile values `2 ^ exponent`, to its
non-empty right and bottom neighbours. -/
def smoothness (s : Nat) : Int :=
  ((List.range 4).map (fun r =>
    ((List.range 4).map (fun c =>
      if cell s r c ≠ 0 then
        (if c < 3 ∧ cell s r (c + 1) ≠ 0
          then -|(2 ^ cell s r c : Int) - (2 ^ cell s r (c + 1) : Int)| else 0)
        + (if r < 3 ∧ cell s (r + 1) c ≠ 0
          then -|(2 ^ cell s r c : Int) - (2 ^ cell s (r + 1) c : Int)| else 0)
      else 0)).sum)).sum

/-- `max(board)` (`players.py` lines 91, 212). -/
def max_tile (s : Nat) : Nat := (Board.get_unpacked_state s).foldl max 0

/-- `ExpectimaxPlayer.evaluate_state` (`players.py` lines 180-217): the
weights 270.0, 470.0, 15.0, 100.0 and every intermediate float are
integral, so the computation is exact and is modelled over `Int`,
coerced once into `ℚ`. -/
def evaluate_state (s : Nat) : ℚ :=
  (((empty_cells s : Int) * 270 + monotonicity s * 470 + smoothness s * 15
      + (max_tile s : Int) * 100 : Int) : ℚ)

/-- `HeuristicPlayer.evaluate_state` (`players.py` lines 45-103): the same
four features with monotonicity weight 47.0 instead of 470.0. -/
def heuristic_evaluate_state (s : Nat) : ℚ :=
  (((empty_cells s : Int) * 270 + monotonicity s * 47 + smoothness s * 15
      + (max_tile s : Int) * 100 : Int) : ℚ)

/-- The state produced by a successful `Board.set_tile` call, as used by
the chance layer at positions taken from `get_empty_tiles` (where the
call cannot fail; on the unreachable failure Python would raise, modelled
here by returning the state unchanged). -/
def place (s r c v : Nat) : Nat :=
  match Board.set_tile s r c v with
  | .ok t => t
  | .error _ => s

/-- `ExpectimaxPlayer.expectimax` (`players.py` lines 219-243) with the
tile probabilities 0.9 and 0.1 idealised as `9/10` and `1/10` in `ℚ`.
The `depth == 0 or not valid_moves` cutoff applies to both layers;
the chance layer additionally returns the evaluation when there are no
empty tiles, and otherwise averages over every empty cell and both tile
outcomes. -/
def expectimax (s : Nat) : Nat → Bool → ℚ
  | 0, _ => evaluate_state s
  | depth + 1, is_player_turn =>
    match Board.get_valid_move_actions s with
    | [] => evaluate_state s
    | m :: ms =>
      if is_player_turn then
        (ms.map (fun p => expectimax p.2 depth false)).foldl max (expectimax m.2 depth false)
      else
        match Board.get_empty_tiles s with
        | [] => evaluate_state s
        | e :: es =>
          let prob_per_tile : ℚ := 1 / (((e :: es).length : ℚ))
          ((e :: es).map (fun rc =>
            prob_per_tile * (9 / 10) * expectimax (place s rc.1 rc.2 1) depth true
              + prob_per_tile * (1 / 10) * expectimax (place s rc.1 rc.2 2) depth true)).sum

/-- `ExpectimaxPlayer.choose_action` (`players.py` lines 245-253): scan
the valid moves keeping the first strictly-greater expectimax value; the
initial `best_move = None`, `best_value = -inf` pair is modelled by
`none` accumulators (every evaluation beats `-inf`). -/
def expectimax_choose_action (depth : Nat) (valid_actions : List (Action × Nat)) :
    Option (Action × Nat) :=
  (valid_actions.foldl
    (fun acc p =>
      let value := expectimax p.2 depth false
      match acc with
      | (some best, some best_value) =>
        if best_value < value then (some p, some value) else (some best, some best_value)
      | _ => (some p, some value))
    ((none : Option (Action × Nat)), (none : Option ℚ))).1

/-- Python's `max(valid_actions, key=f)`: the first element with maximal
key (later elements replace the best only on a strictly greater key). -/
def max_by (f : Nat → ℚ) : List (Action × Nat) → Option (Action × Nat)
  | [] => none
  | x :: xs => some (xs.foldl (fun best p => if f best.2 < f p.2 then p else best) x)

/-- `HeuristicPlayer.choose_action` (`players.py` lines 105-107). -/
def heuristic_choose_action (valid_actions : List (Action × Nat)) : Option (Action × Nat) :=
  max_by heuristic_evaluate_state valid_actions

end Players

/-! ### Helper notions used to state and prove the claims -/

/-- The exponent nibble at 4-bit position `k` of a packed value (position
0 is the least significant nibble). -/
def nib (s k : Nat) : Nat := (s >>> (4 * k)) &&& 0xF

/-- The score contribution of one nibble: `2 ^ t` for a non-empty cell. -/
def tileScore (t : Nat) : Nat := if 0 < t then 2 ^ t else 0

/-- The total score carried by one 16-bit row. -/
def rowScore (r : Nat) : Nat :=
  tileScore (nib r 0) + tileScore (nib r 1) + tileScore (nib r 2) + tileScore (nib r 3)

/-- The total score of a list of exponent nibbles. -/
def listScore (l : List Nat) : Nat := (l.map tileScore).sum

/-- Whether a nibble list contains an adjacent pair that the merge scan
would combine: equal, non-zero and below the 15 overflow guard. -/
def hasMergeablePair : List Nat → Bool
  | a :: b :: rest => (a == b && a != 0 && a != 15) || hasMergeablePair (b :: rest)
  | _ => false

/-! ### Bit-arithmetic bridge lemmas -/

theorem and_15_eq_mod (x : Nat) : x &&& 15 = x % 16 := by
  have h := Nat.and_pow_two_sub_one_eq_mod x 4
  norm_num at h
  exact h

theorem and_ffff_eq_mod (x : Nat) : x &&& 65535 = x % 65536 := by
  have h := Nat.and_pow_two_sub_one_eq_mod x 16
  norm_num at h
  exact h

/-- Bitwise-or against a left-shifted value whose slots are disjoint from
`x` is plain addition. -/
theorem lor_of_lt {x : Nat} (y k : Nat) (h : x < 2 ^ k) :
    x ||| (y <<< k) = x + y * 2 ^ k := by
  apply Nat.eq_of_testBit_eq
  intro j
  rw [Nat.testBit_or, Nat.testBit_shiftLeft]
  rcases Nat.lt_or_ge j k with hj | hj
  · have hd : decide (j ≥ k) = false := by
      simp only [decide_eq_false_iff_not]
      omega
    rw [hd, Bool.false_and, Bool.or_false]
    rw [Nat.testBit_to_div_mod, Nat.testBit_to_div_mod]
    have hk : (2 : Nat) ^ k = 2 ^ (k - j) * 2 ^ j := by
      rw [← Nat.pow_add]
      congr 1
      omega
    have hdiv : (x + y * 2 ^ k) / 2 ^ j = x / 2 ^ j + y * 2 ^ (k - j) := by
      rw [hk, ← Nat.mul_assoc, Nat.add_mul_div_right _ _ (Nat.two_pow_pos j)]
    rw [hdiv]
    have hsplit : y * 2 ^ (k - j) = y * 2 ^ (k - j - 1) * 2 := by
      rw [Nat.mul_assoc, ← Nat.pow_succ]
      congr 2
      omega
    rw [hsplit, Nat.add_mul_mod_self_right]
  · have hx : x.testBit j = false :=
      Nat.testBit_lt_two_pow (lt_of_lt_of_le h (Nat.pow_le_pow_right (by omega) hj))
    have hd : decide (j ≥ k) = true := by
      simp only [decide_eq_true_eq]
      omega
    rw [hx, hd, Bool.true_and, Bool.false_or]
    rw [Nat.testBit_to_div_mod, Nat.testBit_to_div_mod]
    have hdiv : (x + y * 2 ^ k) / 2 ^ j = y / 2 ^ (j - k) := by
      have hjk : (2 : Nat) ^ j = 2 ^ k * 2 ^ (j - k) := by
        rw [← Nat.pow_add]
        congr 1
        omega
      rw [hjk, ← Nat.div_div_eq_div_mul]
      rw [Nat.add_mul_div_right _ _ (Nat.two_pow_pos k), Nat.div_eq_of_lt h, Nat.zero_add]
    rw [hdiv]

/-- Symmetric form of `lor_of_lt`. -/
theorem lor_of_lt' {x : Nat} (y k : Nat) (h : x < 2 ^ k) :
    (y <<< k) ||| x = y * 2 ^ k + x := by
  rw [Nat.lor_comm, lor_of_lt y k h, Nat.add_comm]

/-- Shifting distributes over bitwise or. -/
theorem shiftLeft_lor (x y k : Nat) : (x ||| y) <<< k = (x <<< k) ||| (y <<< k) := by
  apply Nat.eq_of_testBit_eq
  intro j
  simp [Bool.and_or_distrib_left]

/-- Accumulating four 16-bit chunks into their disjoint slots, exactly as
the `simulate_moves` folds do, is plain addition. -/
theorem lor_chunks {t0 t1 t2 t3 : Nat} (h0 : t0 < 65536) (h1 : t1 < 65536)
    (h2 : t2 < 65536) (h3 : t3 < 65536) :
    (((0 ||| (t0 <<< 0)) ||| (t1 <<< 16)) ||| (t2 <<< 32)) ||| (t3 <<< 48)
      = t0 + t1 * 65536 + t2 * 4294967296 + t3 * 281474976710656 := by
  rw [Nat.zero_or, Nat.shiftLeft_zero]
  have h01 : t0 ||| (t1 <<< 16) = t0 + t1 * 65536 := by
    have h := lor_of_lt (x := t0) t1 16 (by norm_num; omega)
    norm_num at h
    exact h
  rw [h01]
  have h02 : (t0 + t1 * 65536) ||| (t2 <<< 32) = t0 + t1 * 65536 + t2 * 4294967296 := by
    have h := lor_of_lt (x := t0 + t1 * 65536) t2 32 (by norm_num; omega)
    norm_num at h
    exact h
  rw [h02]
  have h03 : (t0 + t1 * 65536 + t2 * 4294967296) ||| (t3 <<< 48)
      = t0 + t1 * 65536 + t2 * 4294967296 + t3 * 281474976710656 := by
    have h := lor_of_lt (x := t0 + t1 * 65536 + t2 * 4294967296) t3 48 (by norm_num; omega)
    norm_num at h
    exact h
  rw [h03]

/-- Packing four nibbles into their 4-bit slots, exactly as `packRow` and
the column folds of `simulate_moves` do, is plain addition. -/
theorem pack_nibbles_eq : ∀ a < 16, ∀ b < 16, ∀ c < 16, ∀ d < 16,
    ((a <<< 12) ||| (b <<< 8) ||| (c <<< 4)) ||| d
      = d + c * 16 + b * 256 + a * 4096 := by decide

/-- Or-ing a nibble value into an empty 4-bit slot in the middle of a
packed value is plain addition. -/
theorem lor_mid {s v : Nat} (m : Nat) (hv : v < 16) (hm : (s >>> m) &&& 15 = 0) :
    s ||| (v <<< m) = s + v * 2 ^ m := by
  rw [Nat.shiftRight_eq_div_pow, and_15_eq_mod] at hm
  have hlo : s % 2 ^ m < 2 ^ m := Nat.mod_lt _ (Nat.two_pow_pos m)
  have hq : s / 2 ^ m = s / 2 ^ m / 16 * 16 := by omega
  have h1 : s / 2 ^ m * 2 ^ m + s % 2 ^ m = s := Nat.div_add_mod' s (2 ^ m)
  have hsplit : s = s % 2 ^ m ||| ((s / 2 ^ m / 16 * 16) <<< m) := by
    rw [lor_of_lt _ m hlo, ← hq]
    omega
  conv_lhs => rw [hsplit]
  rw [Nat.lor_assoc, ← shiftLeft_lor]
  have hinner : (s / 2 ^ m / 16 * 16) ||| v = v + s / 2 ^ m / 16 * 16 := by
    have h16 : s / 2 ^ m / 16 * 16 = (s / 2 ^ m / 16) <<< 4 := by
      rw [Nat.shiftLeft_eq]
    rw [h16, Nat.lor_comm, lor_of_lt _ 4 (by norm_num; omega)]
    rw [Nat.shiftLeft_eq]
  rw [hinner, lor_of_lt _ m hlo, Nat.add_mul]
  have hX : s / 2 ^ m / 16 * 16 * 2 ^ m = s / 2 ^ m * 2 ^ m := by
    rw [← hq]
  rw [hX]
  omega

/-! ### Unfolded forms of the four-iteration folds of `simulate_moves` -/

theorem horizMove_eq (table : Nat → Nat) (s : Nat) :
    Board.horizMove table s =
      (((0 ||| (table (Board.rowAt s 0) <<< 0)) ||| (table (Board.rowAt s 1) <<< 16))
          ||| (table (Board.rowAt s 2) <<< 32)) ||| (table (Board.rowAt s 3) <<< 48) := rfl

theorem colValue_eq (s c : Nat) :
    Board.colValue s c =
      (((0 ||| (((Board.rowAt s 0 >>> (4 * (3 - c))) &&& 15) <<< 12))
            ||| (((Board.rowAt s 1 >>> (4 * (3 - c))) &&& 15) <<< 8))
          ||| (((Board.rowAt s 2 >>> (4 * (3 - c))) &&& 15) <<< 4))
        ||| (((Board.rowAt s 3 >>> (4 * (3 - c))) &&& 15) <<< 0) := rfl

theorem vertRow_eq (table : Nat → Nat) (s ri : Nat) :
    Board.vertRow table s ri =
      (((0 ||| (((table (Board.colValue s 0) >>> (4 * (3 - ri))) &&& 15) <<< 12))
            ||| (((table (Board.colValue s 1) >>> (4 * (3 - ri))) &&& 15) <<< 8))
          ||| (((table (Board.colValue s 2) >>> (4 * (3 - ri))) &&& 15) <<< 4))
        ||| (((table (Board.colValue s 3) >>> (4 * (3 - ri))) &&& 15) <<< 0) := rfl

theorem vertMove_eq (table : Nat → Nat) (s : Nat) :
    Board.vertMove table s =
      (((0 ||| (Board.vertRow table s 0 <<< 0)) ||| (Board.vertRow table s 1 <<< 16))
          ||| (Board.vertRow table s 2 <<< 32)) ||| (Board.vertRow table s 3 <<< 48) := rfl

/-! ### Structure of the merge scan -/

theorem mergeScan_length_le : ∀ l : List Nat, (Board.mergeScan l).length ≤ l.length
  | [] => by simp [Board.mergeScan]
  | [_] => by simp [Board.mergeScan]
  | a :: b :: rest => by
    simp only [Board.mergeScan]
    split_ifs with hab h15
    · have := mergeScan_length_le rest
      simp only [List.length_cons]
      omega
    · have := mergeScan_length_le rest
      simp only [List.length_cons]
      omega
    · have := mergeScan_length_le (b :: rest)
      simp only [List.length_cons] at this ⊢
      omega

theorem mergeScan_all_le : ∀ l : List Nat, (∀ x ∈ l, x ≤ 15) →
    ∀ x ∈ Board.mergeScan l, x ≤ 15
  | [], h => by simpa [Board.mergeScan] using h
  | [a], h => by simpa [Board.mergeScan] using h
  | a :: b :: rest, h => by
    have ha : a ≤ 15 := h a (by simp)
    have hb : b ≤ 15 := h b (by simp)
    have hrest : ∀ x ∈ rest, x ≤ 15 := fun x hx => h x (by simp [hx])
    have hbrest : ∀ x ∈ b :: rest, x ≤ 15 := fun x hx => h x (by
      simp only [List.mem_cons] at hx ⊢
      tauto)
    simp only [Board.mergeScan]
    split_ifs with hab h15
    · intro x hx
      simp only [List.mem_cons] at hx
      rcases hx with rfl | rfl | hx
      · exact ha
      · exact hb
      · exact mergeScan_all_le rest hrest x hx
    · intro x hx
      simp only [List.mem_cons] at hx
      rcases hx with rfl | hx
      · omega
      · exact mergeScan_all_le rest hrest x hx
    · intro x hx
      simp only [List.mem_cons] at hx
      rcases hx with rfl | hx
      · exact ha
      · exact mergeScan_all_le (b :: rest) hbrest x hx

theorem mergeScan_all_ne : ∀ l : List Nat, (∀ x ∈ l, x ≠ 0) →
    ∀ x ∈ Board.mergeScan l, x ≠ 0
  | [], h => by simpa [Board.mergeScan] using h
  | [a], h => by simpa [Board.mergeScan] using h
  | a :: b :: rest, h => by
    have ha : a ≠ 0 := h a (by simp)
    have hb : b ≠ 0 := h b (by simp)
    have hrest : ∀ x ∈ rest, x ≠ 0 := fun x hx => h x (by simp [hx])
    have hbrest : ∀ x ∈ b :: rest, x ≠ 0 := fun x hx => h x (by
      simp only [List.mem_cons] at hx ⊢
      tauto)
    simp only [Board.mergeScan]
    split_ifs with hab h15
    · intro x hx
      simp only [List.mem_cons] at hx
      rcases hx with rfl | rfl | hx
      · exact ha
      · exact hb
      · exact mergeScan_all_ne rest hrest x hx
    · intro x hx
      simp only [List.mem_cons] at hx
      rcases hx with rfl | hx
      · omega
      · exact mergeScan_all_ne rest hrest x hx
    · intro x hx
      simp only [List.mem_cons] at hx
      rcases hx with rfl | hx
      · exact ha
      · exact mergeScan_all_ne (b :: rest) hbrest x hx

theorem listScore_cons (a : Nat) (l : List Nat) :
    listScore (a :: l) = tileScore a + listScore l := by
  simp [listScore]

theorem mergeScan_listScore : ∀ l : List Nat, (∀ x ∈ l, x ≠ 0) →
    listScore (Board.mergeScan l) = listScore l
  | [], _ => rfl
  | [_], _ => rfl
  | a :: b :: rest, hne => by
    have ha : a ≠ 0 := hne a (by simp)
    have hrest : ∀ x ∈ rest, x ≠ 0 := fun x hx => hne x (by simp [hx])
    have hbrest : ∀ x ∈ b :: rest, x ≠ 0 := fun x hx => hne x (by
      simp only [List.mem_cons] at hx ⊢
      tauto)
    simp only [Board.mergeScan]
    split_ifs with hab h15
    · simp only [listScore_cons, mergeScan_listScore rest hrest]
    · have hmerge : tileScore (a + 1) = tileScore a + tileScore b := by
        subst hab
        have h1 : tileScore (a + 1) = 2 ^ (a + 1) := by simp [tileScore]
        have h2 : tileScore a = 2 ^ a := by simp [tileScore, Nat.pos_of_ne_zero ha]
        rw [h1, h2, pow_succ]
        omega
      simp only [listScore_cons, mergeScan_listScore rest hrest, hmerge]
      omega
    · simp only [listScore_cons, mergeScan_listScore (b :: rest) hbrest]

theorem hasMergeablePair_tail : ∀ (a : Nat) (l : List Nat),
    hasMergeablePair (a :: l) = false → hasMergeablePair l = false
  | _, [], _ => rfl
  | _, _ :: _, h => by
    simp only [hasMergeablePair, Bool.or_eq_false_iff] at h
    exact h.2

theorem hasMergeablePair_append : ∀ l w : List Nat,
    hasMergeablePair (l ++ w) = false → hasMergeablePair l = false
  | [], _, _ => rfl
  | [_], _, _ => rfl
  | a :: b :: rest, w, h => by
    simp only [List.cons_append] at h
    simp only [hasMergeablePair, Bool.or_eq_false_iff] at h ⊢
    exact ⟨h.1, hasMergeablePair_append (b :: rest) w h.2⟩

/-- On a zero-free list without a mergeable pair the merge scan is the
identity. -/
theorem mergeScan_fixed : ∀ l : List Nat, (∀ x ∈ l, x ≠ 0) →
    hasMergeablePair l = false → Board.mergeScan l = l
  | [], _, _ => rfl
  | [_], _, _ => rfl
  | a :: b :: rest, hne, hnm => by
    have ha : a ≠ 0 := hne a (by simp)
    have hbrest : ∀ x ∈ b :: rest, x ≠ 0 := fun x hx => hne x (by
      simp only [List.mem_cons] at hx ⊢
      tauto)
    have hrest : ∀ x ∈ rest, x ≠ 0 := fun x hx => hne x (by simp [hx])
    simp only [hasMergeablePair, Bool.or_eq_false_iff] at hnm
    obtain ⟨hpair, htail⟩ := hnm
    simp only [Board.mergeScan]
    split_ifs with hab h15
    · rw [mergeScan_fixed rest hrest (hasMergeablePair_tail b rest htail)]
    · exfalso
      simp [hab, hne b (by simp), h15] at hpair
      omega
    · rw [mergeScan_fixed (b :: rest) hbrest htail]

theorem filter_replicate_zero (k : Nat) :
    (List.replicate k 0).filter (fun x => x ≠ 0) = [] := by
  induction k with
  | zero => rfl
  | succ n ih => simpa [List.replicate_succ] using ih

theorem unpackRow_all_le (r : Nat) : ∀ x ∈ Board.unpackRow r, x ≤ 15 := by
  intro x hx
  simp only [Board.unpackRow, List.mem_cons, List.not_mem_nil, or_false] at hx
  rcases hx with rfl | rfl | rfl | rfl <;>
    · rw [and_15_eq_mod]
      omega

theorem unpackRow_packRow (l : List Nat) (hlen : l.length = 4)
    (hle : ∀ x ∈ l, x ≤ 15) : Board.unpackRow (Board.packRow l) = l := by
  match l, hlen with
  | [a, b, c, d], _ =>
    have ha : a ≤ 15 := hle a (by simp)
    have hb : b ≤ 15 := hle b (by simp)
    have hc : c ≤ 15 := hle c (by simp)
    have hd : d ≤ 15 := hle d (by simp)
    have hpack : Board.packRow [a, b, c, d] = d + c * 16 + b * 256 + a * 4096 := by
      show ((a <<< 12) ||| (b <<< 8) ||| (c <<< 4)) ||| d = _
      exact pack_nibbles_eq a (by omega) b (by omega) c (by omega) d (by omega)
    rw [hpack]
    simp only [Board.unpackRow, Nat.shiftRight_eq_div_pow, and_15_eq_mod]
    norm_num
    omega

/-! ### Claim theorems -/

/-- C3: two adjacent maximal exponents (15) are not merged by the slide:
the merge scan emits both tiles unmerged, in order, and in particular the
all-15 row `0xFFFF` slides left to itself unchanged. -/
theorem C3_overflow_guard :
    (∀ rest : List Nat, Board.mergeScan (15 :: 15 :: rest) = 15 :: 15 :: Board.mergeScan rest)
      ∧ Board.row_left 0xFFFF = 0xFFFF :=
  ⟨fun rest => by simp [Board.mergeScan], by decide⟩

/-- C4: an adjacent equal pair below 15 merges into a single cell with
exponent + 1 and is consumed together by the scan (so the merged result
cannot merge again in the same slide); literal rows: `0x1100` slides left
to `0x2000`, `0x1111` slides left to `0x2200` and right to `0x0022`. -/
theorem C4_merge_consumed :
    (∀ (a : Nat) (rest : List Nat), a ≠ 15 →
      Board.mergeScan (a :: a :: rest) = (a + 1) :: Board.mergeScan rest)
    ∧ Board.row_left 0x1100 = 0x2000
    ∧ Board.row_left 0x1111 = 0x2200
    ∧ Board.row_right 0x1111 = 0x0022 :=
  ⟨fun a rest h => by simp [Board.mergeScan, h], by decide, by decide, by decide⟩

theorem C4_merge_consumed_witness :
    (1 : Nat) ≠ 15 ∧ Board.mergeScan [1, 1, 3] = (1 + 1) :: Board.mergeScan [3] :=
  ⟨by decide, C4_merge_consumed.1 1 [3] (by decide)⟩

/-- C5: the literal state `0x1100000000000000` (top row exponents
`[1,1,0,0]`) has exactly the three valid actions LEFT, RIGHT and DOWN,
with the expected successor states, while the simulated UP state equals
the input (so UP is excluded). -/
theorem C5_literal_state_actions :
    Board.get_valid_move_actions 0x1100000000000000 =
      [(Action.LEFT, 0x2000000000000000), (Action.RIGHT, 0x0002000000000000),
        (Action.DOWN, 0x0000000000001100)]
      ∧ Board.simulate_moves 0x1100000000000000 =
          [0x2000000000000000, 0x0002000000000000, 0x1100000000000000, 0x0000000000001100] := by
  constructor
  · decide
  · decide

/-- Placing a nibble value into an empty slot makes that slot hold the
value. -/
theorem nib_lor_self {s v i : Nat} (hv : v < 16)
    (h0 : (s >>> (i * 4)) &&& 0xF = 0) :
    nib (s ||| (v <<< (i * 4))) i = v := by
  rw [lor_mid (i * 4) hv h0]
  rw [Nat.shiftRight_eq_div_pow, and_15_eq_mod] at h0
  unfold nib
  rw [Nat.shiftRight_eq_div_pow, and_15_eq_mod]
  rw [show 4 * i = i * 4 by omega]
  rw [Nat.add_mul_div_right _ _ (Nat.two_pow_pos (i * 4))]
  omega

/-- Placing a nibble value into an empty slot leaves every other nibble
unchanged. -/
theorem nib_lor_other {s v i j : Nat} (hv : v < 16) (hij : j ≠ i)
    (h0 : (s >>> (i * 4)) &&& 0xF = 0) :
    nib (s ||| (v <<< (i * 4))) j = nib s j := by
  rw [lor_mid (i * 4) hv h0]
  rw [Nat.shiftRight_eq_div_pow, and_15_eq_mod] at h0
  unfold nib
  rw [Nat.shiftRight_eq_div_pow, Nat.shiftRight_eq_div_pow, and_15_eq_mod, and_15_eq_mod]
  rcases Nat.lt_or_ge j i with hji | hji
  · have hpow : (2 : Nat) ^ (i * 4 - 4 * j - 4) * 16 * 2 ^ (4 * j) = 2 ^ (i * 4) := by
      rw [show (16 : Nat) = 2 ^ 4 from by norm_num, ← Nat.pow_add, ← Nat.pow_add]
      congr 1
      omega
    have hsplit : v * 2 ^ (i * 4)
        = (v * 2 ^ (i * 4 - 4 * j - 4) * 16) * 2 ^ (4 * j) := by
      calc v * 2 ^ (i * 4)
          = v * (2 ^ (i * 4 - 4 * j - 4) * 16 * 2 ^ (4 * j)) := by rw [hpow]
        _ = (v * 2 ^ (i * 4 - 4 * j - 4) * 16) * 2 ^ (4 * j) := by ring
    rw [hsplit, Nat.add_mul_div_right _ _ (Nat.two_pow_pos (4 * j)),
      Nat.add_mul_mod_self_right]
  · have hdivsplit : ∀ t : Nat,
        t / 2 ^ (4 * j) = t / 2 ^ (i * 4 + 4) / 2 ^ (4 * j - (i * 4 + 4)) := by
      intro t
      rw [Nat.div_div_eq_div_mul, ← Nat.pow_add]
      congr 2
      omega
    rw [hdivsplit (s + v * 2 ^ (i * 4)), hdivsplit s]
    congr 2
    have e1 : (2 : Nat) ^ (i * 4 + 4) = 2 ^ (i * 4) * 16 := by
      rw [Nat.pow_add]
    rw [e1, ← Nat.div_div_eq_div_mul, ← Nat.div_div_eq_div_mul,
      Nat.add_mul_div_right _ _ (Nat.two_pow_pos (i * 4))]
    omega

theorem enumFrom_pairwise {α : Type} : ∀ (k : Nat) (l : List α),
    (List.enumFrom k l).Pairwise (fun p q : Nat × α => p.1 < q.1)
  | _, [] => List.Pairwise.nil
  | k, a :: t => by
    rw [List.enumFrom_cons]
    refine List.Pairwise.cons ?_ (enumFrom_pairwise (k + 1) t)
    intro q hq
    obtain ⟨i, x⟩ := q
    have h := List.mk_mem_enumFrom_iff_le_and_getElem?_sub.mp hq
    simpa using by omega

/-- Membership in `get_empty_tiles`: exactly the in-range coordinates
whose nibble (at the `set_tile` bit position) is zero. -/
theorem get_empty_tiles_mem (s : Nat) : ∀ r c : Nat,
    (r, c) ∈ Board.get_empty_tiles s ↔
      r < 4 ∧ c < 4 ∧ (s >>> (((3 - r) * 4 + (3 - c)) * 4)) &&& 0xF = 0 := by
  intro r c
  unfold Board.get_empty_tiles
  rw [List.mem_filterMap]
  constructor
  · rintro ⟨⟨i, a⟩, hmem, hfa⟩
    rw [List.mk_mem_enum_iff_getElem?] at hmem
    unfold Board.get_unpacked_state at hmem
    rw [List.getElem?_map] at hmem
    by_cases hi : i < 16
    · rw [List.getElem?_range hi] at hmem
      have ha : a = (s >>> ((15 - i) * 4)) &&& 0xF := (Option.some.inj hmem).symm
      by_cases h0 : a = 0
      · subst h0
        rw [if_pos rfl] at hfa
        have hpair := Option.some.inj hfa
        have hr : i / 4 = r := congrArg Prod.fst hpair
        have hc : i % 4 = c := congrArg Prod.snd hpair
        have hsh : (15 - i) * 4 = ((3 - r) * 4 + (3 - c)) * 4 := by omega
        refine ⟨by omega, by omega, ?_⟩
        rw [← hsh]
        exact ha.symm
      · rw [if_neg h0] at hfa
        exact Option.noConfusion hfa
    · have hnone : (List.range 16)[i]? = none := by
        rw [List.getElem?_eq_none_iff]
        simpa using hi
      rw [hnone] at hmem
      exact absurd hmem (by simp)
  · rintro ⟨hr, hc, h0⟩
    refine ⟨(4 * r + c, 0), ?_, ?_⟩
    · rw [List.mk_mem_enum_iff_getElem?]
      unfold Board.get_unpacked_state
      rw [List.getElem?_map, List.getElem?_range (by omega)]
      show some ((s >>> ((15 - (4 * r + c)) * 4)) &&& 0xF) = some 0
      have hsh : (15 - (4 * r + c)) * 4 = ((3 - r) * 4 + (3 - c)) * 4 := by omega
      rw [hsh, h0]
    · rw [if_pos rfl]
      show some ((4 * r + c) / 4, (4 * r + c) % 4) = some (r, c)
      have h1 : (4 * r + c) / 4 = r := by omega
      have h2 : (4 * r + c) % 4 = c := by omega
      rw [h1, h2]

/-- C9: `get_empty_tiles` returns exactly the coordinates `(idx / 4,
idx % 4)` of the zero nibbles, in row-major order; on the zero state it
returns all 16 coordinates and on the full state `0xFFFFFFFFFFFFFFFF`
none. -/
theorem C9_get_empty_tiles (s : Nat) :
    (∀ r c : Nat, (r, c) ∈ Board.get_empty_tiles s ↔
        r < 4 ∧ c < 4 ∧ (s >>> (((3 - r) * 4 + (3 - c)) * 4)) &&& 0xF = 0)
      ∧ (Board.get_empty_tiles s).Pairwise (fun p q => p.1 * 4 + p.2 < q.1 * 4 + q.2)
      ∧ Board.get_empty_tiles 0 =
          [(0, 0), (0, 1), (0, 2), (0, 3), (1, 0), (1, 1), (1, 2), (1, 3),
            (2, 0), (2, 1), (2, 2), (2, 3), (3, 0), (3, 1), (3, 2), (3, 3)]
      ∧ Board.get_empty_tiles 0xFFFFFFFFFFFFFFFF = [] := by
  refine ⟨?_, ?_, by decide, by decide⟩
  · exact get_empty_tiles_mem s
  · unfold Board.get_empty_tiles
    refine List.Pairwise.filterMap _ ?_ (enumFrom_pairwise 0 (Board.get_unpacked_state s))
    intro p q hpq b hb b' hb'
    rw [Option.mem_def] at hb hb'
    by_cases hp : p.2 = 0
    · by_cases hq : q.2 = 0
      · rw [if_pos hp] at hb
        rw [if_pos hq] at hb'
        have hbe := (Option.some.inj hb).symm
        have hbe' := (Option.some.inj hb').symm
        subst hbe
        subst hbe'
        show p.1 / 4 * 4 + p.1 % 4 < q.1 / 4 * 4 + q.1 % 4
        omega
      · rw [if_neg hq] at hb'
        exact Option.noConfusion hb'
    · rw [if_neg hp] at hb
      exact Option.noConfusion hb

/-! ### Score preservation infrastructure -/

theorem listScore_filter_ne (l : List Nat) :
    listScore (l.filter (fun x => x ≠ 0)) = listScore l := by
  induction l with
  | nil => rfl
  | cons a t ih =>
    rw [List.filter_cons]
    by_cases ha : a = 0
    · subst ha
      rw [if_neg (by simp), listScore_cons]
      simpa [tileScore] using ih
    · rw [if_pos (by simp [ha]), listScore_cons, listScore_cons, ih]

theorem listScore_append (l w : List Nat) :
    listScore (l ++ w) = listScore l + listScore w := by
  simp [listScore]

theorem listScore_replicate_zero (k : Nat) : listScore (List.replicate k 0) = 0 := by
  induction k with
  | zero => rfl
  | succ n ih => simp [List.replicate_succ, listScore_cons, tileScore, ih]

theorem listScore_reverse (l : List Nat) : listScore l.reverse = listScore l := by
  simp [listScore, List.sum_reverse]

/-- A left slide conserves the total score of a row: a merge replaces two
`2 ^ e` tiles by one `2 ^ (e + 1)` tile. -/
theorem move_left_listScore (l : List Nat) :
    listScore (Board.move_left l) = listScore l := by
  have h1 : ∀ x ∈ l.filter (fun x => x ≠ 0), x ≠ 0 := by
    intro x hx
    simpa using List.of_mem_filter hx
  show listScore (Board.mergeScan (l.filter (fun x => x ≠ 0))
    ++ List.replicate (4 - (Board.mergeScan (l.filter (fun x => x ≠ 0))).length) 0) = _
  rw [listScore_append, listScore_replicate_zero, mergeScan_listScore _ h1,
    listScore_filter_ne, Nat.add_zero]

theorem move_right_listScore (l : List Nat) :
    listScore (Board.move_right l) = listScore l := by
  unfold Board.move_right
  rw [listScore_reverse, move_left_listScore, listScore_reverse]

theorem move_left_length (l : List Nat) (h : l.length = 4) :
    (Board.move_left l).length = 4 := by
  have h1 := mergeScan_length_le (l.filter (fun x => x ≠ 0))
  have h2 := List.length_filter_le (fun x => decide (x ≠ 0)) l
  show (Board.mergeScan (l.filter (fun x => x ≠ 0))
    ++ List.replicate (4 - (Board.mergeScan (l.filter (fun x => x ≠ 0))).length) 0).length = 4
  simp only [List.length_append, List.length_replicate]
  omega

theorem move_left_all_le (l : List Nat) (h : ∀ x ∈ l, x ≤ 15) :
    ∀ x ∈ Board.move_left l, x ≤ 15 := by
  intro x hx
  have hx2 : x ∈ Board.mergeScan (l.filter (fun x => x ≠ 0))
      ++ List.replicate (4 - (Board.mergeScan (l.filter (fun x => x ≠ 0))).length) 0 := hx
  rcases List.mem_append.mp hx2 with hm | hm
  · exact mergeScan_all_le _ (fun y hy => h y (List.mem_of_mem_filter hy)) x hm
  · rw [List.eq_of_mem_replicate hm]
    omega

theorem move_right_length (l : List Nat) (h : l.length = 4) :
    (Board.move_right l).length = 4 := by
  unfold Board.move_right
  rw [List.length_reverse]
  exact move_left_length _ (by rw [List.length_reverse]; exact h)

theorem move_right_all_le (l : List Nat) (h : ∀ x ∈ l, x ≤ 15) :
    ∀ x ∈ Board.move_right l, x ≤ 15 := by
  unfold Board.move_right
  intro x hx
  exact move_left_all_le _ (fun y hy => h y (List.mem_reverse.mp hy)) x
    (List.mem_reverse.mp hx)

theorem getD_le_of_all_le (l : List Nat) (k : Nat) (h : ∀ x ∈ l, x ≤ 15) :
    l.getD k 0 ≤ 15 := by
  induction l generalizing k with
  | nil => simp [List.getD]
  | cons a t ih =>
    cases k with
    | zero => simpa using h a (by simp)
    | succ n =>
      simp only [List.getD_cons_succ]
      exact ih n (fun x hx => h x (by simp [hx]))

theorem packRow_eq_add (l : List Nat) (h : ∀ x ∈ l, x ≤ 15) :
    Board.packRow l
      = l.getD 3 0 + l.getD 2 0 * 16 + l.getD 1 0 * 256 + l.getD 0 0 * 4096 := by
  have h0 := getD_le_of_all_le l 0 h
  have h1 := getD_le_of_all_le l 1 h
  have h2 := getD_le_of_all_le l 2 h
  have h3 := getD_le_of_all_le l 3 h
  show ((l.getD 0 0 <<< 12) ||| (l.getD 1 0 <<< 8) ||| (l.getD 2 0 <<< 4)) ||| l.getD 3 0 = _
  exact pack_nibbles_eq _ (by omega) _ (by omega) _ (by omega) _ (by omega)

theorem packRow_lt (l : List Nat) (h : ∀ x ∈ l, x ≤ 15) :
    Board.packRow l < 65536 := by
  have h0 := getD_le_of_all_le l 0 h
  have h1 := getD_le_of_all_le l 1 h
  have h2 := getD_le_of_all_le l 2 h
  have h3 := getD_le_of_all_le l 3 h
  rw [packRow_eq_add l h]
  omega

theorem unpackRow_length (r : Nat) : (Board.unpackRow r).length = 4 := rfl

theorem row_left_lt (r : Nat) : Board.row_left r < 65536 :=
  packRow_lt _ (move_left_all_le _ (unpackRow_all_le r))

theorem row_right_lt (r : Nat) : Board.row_right r < 65536 :=
  packRow_lt _ (move_right_all_le _ (unpackRow_all_le r))

theorem nib_lt (x k : Nat) : nib x k < 16 := by
  unfold nib
  rw [and_15_eq_mod]
  omega

theorem listScore_four (a b c d : Nat) :
    listScore [a, b, c, d] = tileScore a + tileScore b + tileScore c + tileScore d := by
  simp only [listScore, List.map_cons, List.map_nil, List.sum_cons, List.sum_nil]
  omega

theorem exists_four (l : List Nat) (h : l.length = 4) :
    ∃ a b c d, l = [a, b, c, d] := by
  match l, h with
  | [a, b, c, d], _ => exact ⟨a, b, c, d, rfl⟩

theorem rowScore_packRow_four (a b c d : Nat) (ha : a ≤ 15) (hb : b ≤ 15)
    (hc : c ≤ 15) (hd : d ≤ 15) :
    rowScore (Board.packRow [a, b, c, d]) = listScore [a, b, c, d] := by
  have hp : Board.packRow [a, b, c, d] = d + c * 16 + b * 256 + a * 4096 := by
    show ((a <<< 12) ||| (b <<< 8) ||| (c <<< 4)) ||| d = _
    exact pack_nibbles_eq a (by omega) b (by omega) c (by omega) d (by omega)
  rw [hp, listScore_four]
  unfold rowScore nib
  simp only [Nat.shiftRight_eq_div_pow, and_15_eq_mod]
  have e0 : (d + c * 16 + b * 256 + a * 4096) / 2 ^ (4 * 0) % 16 = d := by omega
  have e1 : (d + c * 16 + b * 256 + a * 4096) / 2 ^ (4 * 1) % 16 = c := by omega
  have e2 : (d + c * 16 + b * 256 + a * 4096) / 2 ^ (4 * 2) % 16 = b := by omega
  have e3 : (d + c * 16 + b * 256 + a * 4096) / 2 ^ (4 * 3) % 16 = a := by omega
  rw [e0, e1, e2, e3]
  omega

theorem listScore_unpackRow (r : Nat) : listScore (Board.unpackRow r) = rowScore r := by
  show listScore [nib r 3, nib r 2, nib r 1, nib r 0] = rowScore r
  rw [listScore_four]
  unfold rowScore
  omega

/-- The left-slide lookup table conserves the score of a row. -/
theorem row_left_rowScore (r : Nat) : rowScore (Board.row_left r) = rowScore r := by
  obtain ⟨a, b, c, d, h4⟩ := exists_four (Board.move_left (Board.unpackRow r))
    (move_left_length _ (unpackRow_length r))
  have hle : ∀ x ∈ [a, b, c, d], x ≤ 15 := by
    rw [← h4]
    exact move_left_all_le _ (unpackRow_all_le r)
  have hrw : Board.row_left r = Board.packRow [a, b, c, d] := by
    show Board.packRow (Board.move_left (Board.unpackRow r)) = _
    rw [h4]
  rw [hrw, rowScore_packRow_four a b c d (hle a (by simp)) (hle b (by simp))
    (hle c (by simp)) (hle d (by simp)), ← h4, move_left_listScore]
  exact listScore_unpackRow r

/-- The right-slide lookup table conserves the score of a row. -/
theorem row_right_rowScore (r : Nat) : rowScore (Board.row_right r) = rowScore r := by
  obtain ⟨a, b, c, d, h4⟩ := exists_four (Board.move_right (Board.unpackRow r))
    (move_right_length _ (unpackRow_length r))
  have hle : ∀ x ∈ [a, b, c, d], x ≤ 15 := by
    rw [← h4]
    exact move_right_all_le _ (unpackRow_all_le r)
  have hrw : Board.row_right r = Board.packRow [a, b, c, d] := by
    show Board.packRow (Board.move_right (Board.unpackRow r)) = _
    rw [h4]
  rw [hrw, rowScore_packRow_four a b c d (hle a (by simp)) (hle b (by simp))
    (hle c (by simp)) (hle d (by simp)), ← h4, move_right_listScore]
  exact listScore_unpackRow r

theorem sum_filter_pos (l : List Nat) :
    ((l.filter (fun t => 0 < t)).map (fun t => 2 ^ t)).sum = listScore l := by
  induction l with
  | nil => rfl
  | cons a t ih =>
    by_cases ha : 0 < a
    · simp [List.filter_cons, ha, listScore_cons, tileScore, ih]
    · have ha0 : a = 0 := by omega
      subst ha0
      simp [List.filter_cons, listScore_cons, tileScore, ih]

theorem get_score_eq_listScore (s : Nat) :
    get_score s = listScore (Board.get_unpacked_state s) := sum_filter_pos _

theorem get_score_nibs (s : Nat) :
    get_score s = tileScore (nib s 0) + tileScore (nib s 1) + tileScore (nib s 2) + tileScore (nib s 3) + tileScore (nib s 4) + tileScore (nib s 5) + tileScore (nib s 6) + tileScore (nib s 7) + tileScore (nib s 8) + tileScore (nib s 9) + tileScore (nib s 10) + tileScore (nib s 11) + tileScore (nib s 12) + tileScore (nib s 13) + tileScore (nib s 14) + tileScore (nib s 15) := by
  rw [get_score_eq_listScore]
  show listScore [nib s 15, nib s 14, nib s 13, nib s 12, nib s 11, nib s 10,
    nib s 9, nib s 8, nib s 7, nib s 6, nib s 5, nib s 4, nib s 3, nib s 2,
    nib s 1, nib s 0] = _
  simp only [listScore, List.map_cons, List.map_nil, List.sum_cons, List.sum_nil]
  omega

theorem get_score_rows (s : Nat) :
    get_score s = rowScore (Board.rowAt s 0) + rowScore (Board.rowAt s 1)
      + rowScore (Board.rowAt s 2) + rowScore (Board.rowAt s 3) := by
  rw [get_score_nibs]
  unfold rowScore
  have e00 : nib (Board.rowAt s 0) 0 = nib s 0 := by
    unfold nib Board.rowAt
    simp only [Nat.shiftRight_eq_div_pow, and_15_eq_mod, and_ffff_eq_mod]
    omega
  have e01 : nib (Board.rowAt s 0) 1 = nib s 1 := by
    unfold nib Board.rowAt
    simp only [Nat.shiftRight_eq_div_pow, and_15_eq_mod, and_ffff_eq_mod]
    omega
  have e02 : nib (Board.rowAt s 0) 2 = nib s 2 := by
    unfold nib Board.rowAt
    simp only [Nat.shiftRight_eq_div_pow, and_15_eq_mod, and_ffff_eq_mod]
    omega
  have e03 : nib (Board.rowAt s 0) 3 = nib s 3 := by
    unfold nib Board.rowAt
    simp only [Nat.shiftRight_eq_div_pow, and_15_eq_mod, and_ffff_eq_mod]
    omega
  have e10 : nib (Board.rowAt s 1) 0 = nib s 4 := by
    unfold nib Board.rowAt
    simp only [Nat.shiftRight_eq_div_pow, and_15_eq_mod, and_ffff_eq_mod]
    omega
  have e11 : nib (Board.rowAt s 1) 1 = nib s 5 := by
    unfold nib Board.rowAt
    simp only [Nat.shiftRight_eq_div_pow, and_15_eq_mod, and_ffff_eq_mod]
    omega
  have e12 : nib (Board.rowAt s 1) 2 = nib s 6 := by
    unfold nib Board.rowAt
    simp only [Nat.shiftRight_eq_div_pow, and_15_eq_mod, and_ffff_eq_mod]
    omega
  have e13 : nib (Board.rowAt s 1) 3 = nib s 7 := by
    unfold nib Board.rowAt
    simp only [Nat.shiftRight_eq_div_pow, and_15_eq_mod, and_ffff_eq_mod]
    omega
  have e20 : nib (Board.rowAt s 2) 0 = nib s 8 := by
    unfold nib Board.rowAt
    simp only [Nat.shiftRight_eq_div_pow, and_15_eq_mod, and_ffff_eq_mod]
    omega
  have e21 : nib (Board.rowAt s 2) 1 = nib s 9 := by
    unfold nib Board.rowAt
    simp only [Nat.shiftRight_eq_div_pow, and_15_eq_mod, and_ffff_eq_mod]
    omega
  have e22 : nib (Board.rowAt s 2) 2 = nib s 10 := by
    unfold nib Board.rowAt
    simp only [Nat.shiftRight_eq_div_pow, and_15_eq_mod, and_ffff_eq_mod]
    omega
  have e23 : nib (Board.rowAt s 2) 3 = nib s 11 := by
    unfold nib Board.rowAt
    simp only [Nat.shiftRight_eq_div_pow, and_15_eq_mod, and_ffff_eq_mod]
    omega
  have e30 : nib (Board.rowAt s 3) 0 = nib s 12 := by
    unfold nib Board.rowAt
    simp only [Nat.shiftRight_eq_div_pow, and_15_eq_mod, and_ffff_eq_mod]
    omega
  have e31 : nib (Board.rowAt s 3) 1 = nib s 13 := by
    unfold nib Board.rowAt
    simp only [Nat.shiftRight_eq_div_pow, and_15_eq_mod, and_ffff_eq_mod]
    omega
  have e32 : nib (Board.rowAt s 3) 2 = nib s 14 := by
    unfold nib Board.rowAt
    simp only [Nat.shiftRight_eq_div_pow, and_15_eq_mod, and_ffff_eq_mod]
    omega
  have e33 : nib (Board.rowAt s 3) 3 = nib s 15 := by
    unfold nib Board.rowAt
    simp only [Nat.shiftRight_eq_div_pow, and_15_eq_mod, and_ffff_eq_mod]
    omega
  rw [e00, e01, e02, e03, e10, e11, e12, e13, e20, e21, e22, e23, e30, e31, e32, e33]
  omega

theorem get_score_chunks (t0 t1 t2 t3 : Nat) (h0 : t0 < 65536)
    (h1 : t1 < 65536) (h2 : t2 < 65536) (h3 : t3 < 65536) :
    get_score (t0 + t1 * 65536 + t2 * 4294967296 + t3 * 281474976710656)
      = rowScore t0 + rowScore t1 + rowScore t2 + rowScore t3 := by
  rw [get_score_nibs]
  unfold rowScore
  have e0 : nib (t0 + t1 * 65536 + t2 * 4294967296 + t3 * 281474976710656) 0 = nib t0 0 := by
    unfold nib
    simp only [Nat.shiftRight_eq_div_pow, and_15_eq_mod]
    omega
  have e1 : nib (t0 + t1 * 65536 + t2 * 4294967296 + t3 * 281474976710656) 1 = nib t0 1 := by
    unfold nib
    simp only [Nat.shiftRight_eq_div_pow, and_15_eq_mod]
    omega
  have e2 : nib (t0 + t1 * 65536 + t2 * 4294967296 + t3 * 281474976710656) 2 = nib t0 2 := by
    unfold nib
    simp only [Nat.shiftRight_eq_div_pow, and_15_eq_mod]
    omega
  have e3 : nib (t0 + t1 * 65536 + t2 * 4294967296 + t3 * 281474976710656) 3 = nib t0 3 := by
    unfold nib
    simp only [Nat.shiftRight_eq_div_pow, and_15_eq_mod]
    omega
  have e4 : nib (t0 + t1 * 65536 + t2 * 4294967296 + t3 * 281474976710656) 4 = nib t1 0 := by
    unfold nib
    simp only [Nat.shiftRight_eq_div_pow, and_15_eq_mod]
    omega
  have e5 : nib (t0 + t1 * 65536 + t2 * 4294967296 + t3 * 281474976710656) 5 = nib t1 1 := by
    unfold nib
    simp only [Nat.shiftRight_eq_div_pow, and_15_eq_mod]
    omega
  have e6 : nib (t0 + t1 * 65536 + t2 * 4294967296 + t3 * 281474976710656) 6 = nib t1 2 := by
    unfold nib
    simp only [Nat.shiftRight_eq_div_pow, and_15_eq_mod]
    omega
  have e7 : nib (t0 + t1 * 65536 + t2 * 4294967296 + t3 * 281474976710656) 7 = nib t1 3 := by
    unfold nib
    simp only [Nat.shiftRight_eq_div_pow, and_15_eq_mod]
    omega
  have e8 : nib (t0 + t1 * 65536 + t2 * 4294967296 + t3 * 281474976710656) 8 = nib t2 0 := by
    unfold nib
    simp only [Nat.shiftRight_eq_div_pow, and_15_eq_mod]
    omega
  have e9 : nib (t0 + t1 * 65536 + t2 * 4294967296 + t3 * 281474976710656) 9 = nib t2 1 := by
    unfold nib
    simp only [Nat.shiftRight_eq_div_pow, and_15_eq_mod]
    omega
  have e10 : nib (t0 + t1 * 65536 + t2 * 4294967296 + t3 * 281474976710656) 10 = nib t2 2 := by
    unfold nib
    simp only [Nat.shiftRight_eq_div_pow, and_15_eq_mod]
    omega
  have e11 : nib (t0 + t1 * 65536 + t2 * 4294967296 + t3 * 281474976710656) 11 = nib t2 3 := by
    unfold nib
    simp only [Nat.shiftRight_eq_div_pow, and_15_eq_mod]
    omega
  have e12 : nib (t0 + t1 * 65536 + t2 * 4294967296 + t3 * 281474976710656) 12 = nib t3 0 := by
    unfold nib
    simp only [Nat.shiftRight_eq_div_pow, and_15_eq_mod]
    omega
  have e13 : nib (t0 + t1 * 65536 + t2 * 4294967296 + t3 * 281474976710656) 13 = nib t3 1 := by
    unfold nib
    simp only [Nat.shiftRight_eq_div_pow, and_15_eq_mod]
    omega
  have e14 : nib (t0 + t1 * 65536 + t2 * 4294967296 + t3 * 281474976710656) 14 = nib t3 2 := by
    unfold nib
    simp only [Nat.shiftRight_eq_div_pow, and_15_eq_mod]
    omega
  have e15 : nib (t0 + t1 * 65536 + t2 * 4294967296 + t3 * 281474976710656) 15 = nib t3 3 := by
    unfold nib
    simp only [Nat.shiftRight_eq_div_pow, and_15_eq_mod]
    omega
  rw [e0, e1, e2, e3, e4, e5, e6, e7, e8, e9, e10, e11, e12, e13, e14, e15]
  omega

theorem horizMove_get_score (table : Nat → Nat) (hlt : ∀ r, table r < 65536)
    (hsc : ∀ r, rowScore (table r) = rowScore r) (s : Nat) :
    get_score (Board.horizMove table s) = get_score s := by
  rw [horizMove_eq, lor_chunks (hlt _) (hlt _) (hlt _) (hlt _),
    get_score_chunks _ _ _ _ (hlt _) (hlt _) (hlt _) (hlt _),
    hsc, hsc, hsc, hsc, ← get_score_rows]

/-- Scores of the vertical (UP/DOWN) move of `simulate_moves`: the four
column values are a permutation of the 16 nibbles, each column is
transformed by a score-preserving table, and the results are scattered
back, so the total score is conserved. -/
theorem vertMove_get_score (table : Nat → Nat) (hlt : ∀ r, table r < 65536)
    (hsc : ∀ r, rowScore (table r) = rowScore r) (s : Nat) :
    get_score (Board.vertMove table s) = get_score s := by
  have hcv0 : Board.colValue s 0
      = nib (Board.rowAt s 3) 3 + nib (Board.rowAt s 2) 3 * 16 + nib (Board.rowAt s 1) 3 * 256 + nib (Board.rowAt s 0) 3 * 4096 := by
    rw [colValue_eq, Nat.zero_or, Nat.shiftLeft_zero]
    exact pack_nibbles_eq _ (nib_lt _ _) _ (nib_lt _ _) _ (nib_lt _ _) _ (nib_lt _ _)
  have hcv1 : Board.colValue s 1
      = nib (Board.rowAt s 3) 2 + nib (Board.rowAt s 2) 2 * 16 + nib (Board.rowAt s 1) 2 * 256 + nib (Board.rowAt s 0) 2 * 4096 := by
    rw [colValue_eq, Nat.zero_or, Nat.shiftLeft_zero]
    exact pack_nibbles_eq _ (nib_lt _ _) _ (nib_lt _ _) _ (nib_lt _ _) _ (nib_lt _ _)
  have hcv2 : Board.colValue s 2
      = nib (Board.rowAt s 3) 1 + nib (Board.rowAt s 2) 1 * 16 + nib (Board.rowAt s 1) 1 * 256 + nib (Board.rowAt s 0) 1 * 4096 := by
    rw [colValue_eq, Nat.zero_or, Nat.shiftLeft_zero]
    exact pack_nibbles_eq _ (nib_lt _ _) _ (nib_lt _ _) _ (nib_lt _ _) _ (nib_lt _ _)
  have hcv3 : Board.colValue s 3
      = nib (Board.rowAt s 3) 0 + nib (Board.rowAt s 2) 0 * 16 + nib (Board.rowAt s 1) 0 * 256 + nib (Board.rowAt s 0) 0 * 4096 := by
    rw [colValue_eq, Nat.zero_or, Nat.shiftLeft_zero]
    exact pack_nibbles_eq _ (nib_lt _ _) _ (nib_lt _ _) _ (nib_lt _ _) _ (nib_lt _ _)
  have g00 : nib (Board.colValue s 0) 0 = nib (Board.rowAt s 3) 3 := by
    rw [hcv0]
    unfold nib
    simp only [Nat.shiftRight_eq_div_pow, and_15_eq_mod]
    omega
  have g01 : nib (Board.colValue s 0) 1 = nib (Board.rowAt s 2) 3 := by
    rw [hcv0]
    unfold nib
    simp only [Nat.shiftRight_eq_div_pow, and_15_eq_mod]
    omega
  have g02 : nib (Board.colValue s 0) 2 = nib (Board.rowAt s 1) 3 := by
    rw [hcv0]
    unfold nib
    simp only [Nat.shiftRight_eq_div_pow, and_15_eq_mod]
    omega
  have g03 : nib (Board.colValue s 0) 3 = nib (Board.rowAt s 0) 3 := by
    rw [hcv0]
    unfold nib
    simp only [Nat.shiftRight_eq_div_pow, and_15_eq_mod]
    omega
  have g10 : nib (Board.colValue s 1) 0 = nib (Board.rowAt s 3) 2 := by
    rw [hcv1]
    unfold nib
    simp only [Nat.shiftRight_eq_div_pow, and_15_eq_mod]
    omega
  have g11 : nib (Board.colValue s 1) 1 = nib (Board.rowAt s 2) 2 := by
    rw [hcv1]
    unfold nib
    simp only [Nat.shiftRight_eq_div_pow, and_15_eq_mod]
    omega
  have g12 : nib (Board.colValue s 1) 2 = nib (Board.rowAt s 1) 2 := by
    rw [hcv1]
    unfold nib
    simp only [Nat.shiftRight_eq_div_pow, and_15_eq_mod]
    omega
  have g13 : nib (Board.colValue s 1) 3 = nib (Board.rowAt s 0) 2 := by
    rw [hcv1]
    unfold nib
    simp only [Nat.shiftRight_eq_div_pow, and_15_eq_mod]
    omega
  have g20 : nib (Board.colValue s 2) 0 = nib (Board.rowAt s 3) 1 := by
    rw [hcv2]
    unfold nib
    simp only [Nat.shiftRight_eq_div_pow, and_15_eq_mod]
    omega
  have g21 : nib (Board.colValue s 2) 1 = nib (Board.rowAt s 2) 1 := by
    rw [hcv2]
    unfold nib
    simp only [Nat.shiftRight_eq_div_pow, and_15_eq_mod]
    omega
  have g22 : nib (Board.colValue s 2) 2 = nib (Board.rowAt s 1) 1 := by
    rw [hcv2]
    unfold nib
    simp only [Nat.shiftRight_eq_div_pow, and_15_eq_mod]
    omega
  have g23 : nib (Board.colValue s 2) 3 = nib (Board.rowAt s 0) 1 := by
    rw [hcv2]
    unfold nib
    simp only [Nat.shiftRight_eq_div_pow, and_15_eq_mod]
    omega
  have g30 : nib (Board.colValue s 3) 0 = nib (Board.rowAt s 3) 0 := by
    rw [hcv3]
    unfold nib
    simp only [Nat.shiftRight_eq_div_pow, and_15_eq_mod]
    omega
  have g31 : nib (Board.colValue s 3) 1 = nib (Board.rowAt s 2) 0 := by
    rw [hcv3]
    unfold nib
    simp only [Nat.shiftRight_eq_div_pow, and_15_eq_mod]
    omega
  have g32 : nib (Board.colValue s 3) 2 = nib (Board.rowAt s 1) 0 := by
    rw [hcv3]
    unfold nib
    simp only [Nat.shiftRight_eq_div_pow, and_15_eq_mod]
    omega
  have g33 : nib (Board.colValue s 3) 3 = nib (Board.rowAt s 0) 0 := by
    rw [hcv3]
    unfold nib
    simp only [Nat.shiftRight_eq_div_pow, and_15_eq_mod]
    omega
  have hvr0 : Board.vertRow table s 0
      = nib (table (Board.colValue s 3)) 3 + nib (table (Board.colValue s 2)) 3 * 16
        + nib (table (Board.colValue s 1)) 3 * 256 + nib (table (Board.colValue s 0)) 3 * 4096 := by
    rw [vertRow_eq, Nat.zero_or, Nat.shiftLeft_zero]
    exact pack_nibbles_eq _ (nib_lt _ _) _ (nib_lt _ _) _ (nib_lt _ _) _ (nib_lt _ _)
  have hvr1 : Board.vertRow table s 1
      = nib (table (Board.colValue s 3)) 2 + nib (table (Board.colValue s 2)) 2 * 16
        + nib (table (Board.colValue s 1)) 2 * 256 + nib (table (Board.colValue s 0)) 2 * 4096 := by
    rw [vertRow_eq, Nat.zero_or, Nat.shiftLeft_zero]
    exact pack_nibbles_eq _ (nib_lt _ _) _ (nib_lt _ _) _ (nib_lt _ _) _ (nib_lt _ _)
  have hvr2 : Board.vertRow table s 2
      = nib (table (Board.colValue s 3)) 1 + nib (table (Board.colValue s 2)) 1 * 16
        + nib (table (Board.colValue s 1)) 1 * 256 + nib (table (Board.colValue s 0)) 1 * 4096 := by
    rw [vertRow_eq, Nat.zero_or, Nat.shiftLeft_zero]
    exact pack_nibbles_eq _ (nib_lt _ _) _ (nib_lt _ _) _ (nib_lt _ _) _ (nib_lt _ _)
  have hvr3 : Board.vertRow table s 3
      = nib (table (Board.colValue s 3)) 0 + nib (table (Board.colValue s 2)) 0 * 16
        + nib (table (Board.colValue s 1)) 0 * 256 + nib (table (Board.colValue s 0)) 0 * 4096 := by
    rw [vertRow_eq, Nat.zero_or, Nat.shiftLeft_zero]
    exact pack_nibbles_eq _ (nib_lt _ _) _ (nib_lt _ _) _ (nib_lt _ _) _ (nib_lt _ _)
  have hvrlt0 : Board.vertRow table s 0 < 65536 := by
    rw [hvr0]
    have b0 := nib_lt (table (Board.colValue s 3)) 3
    have b1 := nib_lt (table (Board.colValue s 2)) 3
    have b2 := nib_lt (table (Board.colValue s 1)) 3
    have b3 := nib_lt (table (Board.colValue s 0)) 3
    omega
  have hvrlt1 : Board.vertRow table s 1 < 65536 := by
    rw [hvr1]
    have b0 := nib_lt (table (Board.colValue s 3)) 2
    have b1 := nib_lt (table (Board.colValue s 2)) 2
    have b2 := nib_lt (table (Board.colValue s 1)) 2
    have b3 := nib_lt (table (Board.colValue s 0)) 2
    omega
  have hvrlt2 : Board.vertRow table s 2 < 65536 := by
    rw [hvr2]
    have b0 := nib_lt (table (Board.colValue s 3)) 1
    have b1 := nib_lt (table (Board.colValue s 2)) 1
    have b2 := nib_lt (table (Board.colValue s 1)) 1
    have b3 := nib_lt (table (Board.colValue s 0)) 1
    omega
  have hvrlt3 : Board.vertRow table s 3 < 65536 := by
    rw [hvr3]
    have b0 := nib_lt (table (Board.colValue s 3)) 0
    have b1 := nib_lt (table (Board.colValue s 2)) 0
    have b2 := nib_lt (table (Board.colValue s 1)) 0
    have b3 := nib_lt (table (Board.colValue s 0)) 0
    omega
  have h00 : nib (Board.vertRow table s 0) 0 = nib (table (Board.colValue s 3)) 3 := by
    rw [hvr0]
    unfold nib
    simp only [Nat.shiftRight_eq_div_pow, and_15_eq_mod]
    omega
  have h01 : nib (Board.vertRow table s 0) 1 = nib (table (Board.colValue s 2)) 3 := by
    rw [hvr0]
    unfold nib
    simp only [Nat.shiftRight_eq_div_pow, and_15_eq_mod]
    omega
  have h02 : nib (Board.vertRow table s 0) 2 = nib (table (Board.colValue s 1)) 3 := by
    rw [hvr0]
    unfold nib
    simp only [Nat.shiftRight_eq_div_pow, and_15_eq_mod]
    omega
  have h03 : nib (Board.vertRow table s 0) 3 = nib (table (Board.colValue s 0)) 3 := by
    rw [hvr0]
    unfold nib
    simp only [Nat.shiftRight_eq_div_pow, and_15_eq_mod]
    omega
  have h10 : nib (Board.vertRow table s 1) 0 = nib (table (Board.colValue s 3)) 2 := by
    rw [hvr1]
    unfold nib
    simp only [Nat.shiftRight_eq_div_pow, and_15_eq_mod]
    omega
  have h11 : nib (Board.vertRow table s 1) 1 = nib (table (Board.colValue s 2)) 2 := by
    rw [hvr1]
    unfold nib
    simp only [Nat.shiftRight_eq_div_pow, and_15_eq_mod]
    omega
  have h12 : nib (Board.vertRow table s 1) 2 = nib (table (Board.colValue s 1)) 2 := by
    rw [hvr1]
    unfold nib
    simp only [Nat.shiftRight_eq_div_pow, and_15_eq_mod]
    omega
  have h13 : nib (Board.vertRow table s 1) 3 = nib (table (Board.colValue s 0)) 2 := by
    rw [hvr1]
    unfold nib
    simp only [Nat.shiftRight_eq_div_pow, and_15_eq_mod]
    omega
  have h20 : nib (Board.vertRow table s 2) 0 = nib (table (Board.colValue s 3)) 1 := by
    rw [hvr2]
    unfold nib
    simp only [Nat.shiftRight_eq_div_pow, and_15_eq_mod]
    omega
  have h21 : nib (Board.vertRow table s 2) 1 = nib (table (Board.colValue s 2)) 1 := by
    rw [hvr2]
    unfold nib
    simp only [Nat.shiftRight_eq_div_pow, and_15_eq_mod]
    omega
  have h22 : nib (Board.vertRow table s 2) 2 = nib (table (Board.colValue s 1)) 1 := by
    rw [hvr2]
    unfold nib
    simp only [Nat.shiftRight_eq_div_pow, and_15_eq_mod]
    omega
  have h23 : nib (Board.vertRow table s 2) 3 = nib (table (Board.colValue s 0)) 1 := by
    rw [hvr2]
    unfold nib
    simp only [Nat.shiftRight_eq_div_pow, and_15_eq_mod]
    omega
  have h30 : nib (Board.vertRow table s 3) 0 = nib (table (Board.colValue s 3)) 0 := by
    rw [hvr3]
    unfold nib
    simp only [Nat.shiftRight_eq_div_pow, and_15_eq_mod]
    omega
  have h31 : nib (Board.vertRow table s 3) 1 = nib (table (Board.colValue s 2)) 0 := by
    rw [hvr3]
    unfold nib
    simp only [Nat.shiftRight_eq_div_pow, and_15_eq_mod]
    omega
  have h32 : nib (Board.vertRow table s 3) 2 = nib (table (Board.colValue s 1)) 0 := by
    rw [hvr3]
    unfold nib
    simp only [Nat.shiftRight_eq_div_pow, and_15_eq_mod]
    omega
  have h33 : nib (Board.vertRow table s 3) 3 = nib (table (Board.colValue s 0)) 0 := by
    rw [hvr3]
    unfold nib
    simp only [Nat.shiftRight_eq_div_pow, and_15_eq_mod]
    omega
  have hs0 : rowScore (table (Board.colValue s 0)) = rowScore (Board.colValue s 0) := hsc _
  have hs1 : rowScore (table (Board.colValue s 1)) = rowScore (Board.colValue s 1) := hsc _
  have hs2 : rowScore (table (Board.colValue s 2)) = rowScore (Board.colValue s 2) := hsc _
  have hs3 : rowScore (table (Board.colValue s 3)) = rowScore (Board.colValue s 3) := hsc _
  rw [vertMove_eq, lor_chunks hvrlt0 hvrlt1 hvrlt2 hvrlt3,
    get_score_chunks _ _ _ _ hvrlt0 hvrlt1 hvrlt2 hvrlt3, get_score_rows s]
  unfold rowScore at hs0 hs1 hs2 hs3 ⊢
  rw [h00, h01, h02, h03, h10, h11, h12, h13, h20, h21, h22, h23, h30, h31, h32, h33]
  rw [g00, g01, g02, g03] at hs0
  rw [g10, g11, g12, g13] at hs1
  rw [g20, g21, g22, g23] at hs2
  rw [g30, g31, g32, g33] at hs3
  omega

/-- C10: each of the four slides returned by `simulate_moves` conserves
the total score `sum(2 ^ e)` over the non-zero nibbles: merges replace
two tiles of exponent `e` by one of exponent `e + 1`, and all other
tiles are only repositioned. -/
theorem C10_score_invariant (s : Nat) (hs : s < 2 ^ 64) :
    ∀ t ∈ Board.simulate_moves s, get_score t = get_score s := by
  intro t ht
  simp only [Board.simulate_moves, List.mem_cons, List.not_mem_nil, or_false] at ht
  rcases ht with rfl | rfl | rfl | rfl
  · exact horizMove_get_score Board.row_left row_left_lt row_left_rowScore s
  · exact horizMove_get_score Board.row_right row_right_lt row_right_rowScore s
  · exact vertMove_get_score Board.row_right row_right_lt row_right_rowScore s
  · exact vertMove_get_score Board.row_left row_left_lt row_left_rowScore s

theorem C10_score_invariant_witness :
    (0x1100000000000000 : Nat) < 2 ^ 64
      ∧ get_score 0x0000000000001100 = get_score 0x1100000000000000 :=
  ⟨by norm_num, C10_score_invariant 0x1100000000000000 (by norm_num)
    0x0000000000001100 (by decide)⟩

/-- C6: on a 64-bit state, `set_tile` fails exactly when row or col is
outside `[0,3]`, value is outside `[0,15]`, or the addressed nibble is
non-zero; otherwise it returns the state with the value OR-ed into the
nibble at bit position `4 * ((3-row)*4 + (3-col))`, that nibble then
decodes back to the value and every other nibble is unchanged. -/
theorem C6_set_tile (s : Nat) (row col value : Int) (hs : s < 2 ^ 64) :
    ((∃ e, Board.set_tile s row col value = .error e) ↔
        ¬(0 ≤ row ∧ row ≤ 3 ∧ 0 ≤ col ∧ col ≤ 3 ∧ 0 ≤ value ∧ value ≤ 15
          ∧ (s >>> (((3 - row.toNat) * 4 + (3 - col.toNat)) * 4)) &&& 0xF = 0))
      ∧ ((0 ≤ row ∧ row ≤ 3 ∧ 0 ≤ col ∧ col ≤ 3 ∧ 0 ≤ value ∧ value ≤ 15
          ∧ (s >>> (((3 - row.toNat) * 4 + (3 - col.toNat)) * 4)) &&& 0xF = 0) →
        Board.set_tile s row col value
            = .ok (s ||| (value.toNat
                <<< (((3 - row.toNat) * 4 + (3 - col.toNat)) * 4)))
          ∧ nib (s ||| (value.toNat
                <<< (((3 - row.toNat) * 4 + (3 - col.toNat)) * 4)))
              ((3 - row.toNat) * 4 + (3 - col.toNat)) = value.toNat
          ∧ ∀ j : Nat, j ≠ (3 - row.toNat) * 4 + (3 - col.toNat) →
              nib (s ||| (value.toNat
                  <<< (((3 - row.toNat) * 4 + (3 - col.toNat)) * 4))) j
                = nib s j) := by
  simp only [Board.set_tile]
  rw [if_neg (by omega)]
  by_cases hrc : row < 0 ∨ 3 < row ∨ col < 0 ∨ 3 < col
  · rw [if_pos hrc]
    refine ⟨⟨fun _ hcond => by omega, fun _ => ⟨_, rfl⟩⟩, fun hcond => by omega⟩
  · rw [if_neg hrc]
    by_cases hv : value < 0 ∨ 15 < value
    · rw [if_pos hv]
      refine ⟨⟨fun _ hcond => by omega, fun _ => ⟨_, rfl⟩⟩, fun hcond => by omega⟩
    · rw [if_neg hv]
      by_cases hocc :
          (s >>> ((((3 - row.toNat) * 4 + (3 - col.toNat)) * 4))) &&& 0xF ≠ 0
      · rw [if_pos hocc]
        refine ⟨⟨fun _ hcond => hocc hcond.2.2.2.2.2.2, fun _ => ⟨_, rfl⟩⟩,
          fun hcond => absurd hcond.2.2.2.2.2.2 hocc⟩
      · rw [if_neg hocc]
        push_neg at hocc
        have hvn : value.toNat < 16 := by omega
        refine ⟨⟨fun ⟨e, he⟩ => Except.noConfusion he, fun hn => absurd
          ⟨by omega, by omega, by omega, by omega, by omega, by omega, hocc⟩ hn⟩, ?_⟩
        intro _
        exact ⟨rfl, nib_lor_self hvn hocc, fun j hj => nib_lor_other hvn hj hocc⟩

theorem C6_set_tile_witness :
    Board.set_tile 0 0 0 1
      = .ok (0 ||| ((1 : Int).toNat
          <<< (((3 - (0 : Int).toNat) * 4 + (3 - (0 : Int).toNat)) * 4))) :=
  ((C6_set_tile 0 0 0 1 (by norm_num)).2 (by decide)).1

/-- C1: `simulate_moves` always returns exactly 4 states and
`get_valid_move_actions` is exactly the positional tagging of those
states with `[LEFT, RIGHT, UP, DOWN]`, restricted to the successor
states that differ from the input (equal states are excluded). -/
theorem C1_simulate_and_valid (s : Nat) :
    (Board.simulate_moves s).length = 4 ∧
    Board.get_valid_move_actions s =
      ([Action.LEFT, Action.RIGHT, Action.UP, Action.DOWN].zip
          (Board.simulate_moves s)).filter (fun p => p.2 != s) := by
  refine ⟨rfl, ?_⟩
  obtain ⟨x0, x1, x2, x3, h⟩ : ∃ x0 x1 x2 x3, Board.simulate_moves s = [x0, x1, x2, x3] :=
    ⟨_, _, _, _, rfl⟩
  simp only [Board.get_valid_move_actions, h]
  by_cases h0 : x0 = s <;> by_cases h1 : x1 = s <;> by_cases h2 : x2 = s <;>
    by_cases h3 : x3 = s <;>
      simp [List.enum, List.enumFrom, h0, h1, h2, h3, Action.fromIdx]

/-- C2 (counterexample): the left slide is not idempotent on every row.
For the row `0x0211` (exponents `[0,2,1,1]`) one slide produces `0x2200`
and a second slide merges again to `0x3000`. -/
theorem C2_counterexample :
    0x0211 ≤ 65535 ∧ Board.row_left (Board.row_left 0x0211) ≠ Board.row_left 0x0211 := by
  constructor
  · decide
  · decide

/-- C2 (amended): a single left slide is idempotent exactly on those rows
whose slide result contains no remaining mergeable adjacent pair (equal,
non-zero, below 15); sliding can otherwise create a new mergeable pair
and a second slide merges it. -/
theorem C2_amended (r : Nat) (hr : r ≤ 65535)
    (hnm : hasMergeablePair (Board.unpackRow (Board.row_left r)) = false) :
    Board.row_left (Board.row_left r) = Board.row_left r := by
  clear hr
  set l := Board.unpackRow r with hl
  set f := l.filter (fun x => x ≠ 0) with hf
  set m := Board.mergeScan f with hm
  have hl_le : ∀ x ∈ l, x ≤ 15 := unpackRow_all_le r
  have hf_le : ∀ x ∈ f, x ≤ 15 := fun x hx => hl_le x (List.mem_of_mem_filter hx)
  have hf_ne : ∀ x ∈ f, x ≠ 0 := by
    intro x hx
    have hmem := List.of_mem_filter hx
    simpa using hmem
  have hm_le : ∀ x ∈ m, x ≤ 15 := mergeScan_all_le f hf_le
  have hm_ne : ∀ x ∈ m, x ≠ 0 := mergeScan_all_ne f hf_ne
  have hm_len : m.length ≤ 4 := by
    have h1 := mergeScan_length_le f
    rw [← hm] at h1
    have h2 := List.length_filter_le (fun x => decide (x ≠ 0)) l
    rw [← hf] at h2
    have h3 : l.length = 4 := rfl
    omega
  have hml : Board.move_left l = m ++ List.replicate (4 - m.length) 0 := rfl
  have hml_len : (Board.move_left l).length = 4 := by
    rw [hml]
    simp only [List.length_append, List.length_replicate]
    omega
  have hml_le : ∀ x ∈ Board.move_left l, x ≤ 15 := by
    rw [hml]
    intro x hx
    rcases List.mem_append.mp hx with hx | hx
    · exact hm_le x hx
    · rw [List.eq_of_mem_replicate hx]
      omega
  have hrl : Board.row_left r = Board.packRow (Board.move_left l) := rfl
  have hunpack : Board.unpackRow (Board.row_left r) = Board.move_left l := by
    rw [hrl]
    exact unpackRow_packRow _ hml_len hml_le
  have hfilter2 : (Board.move_left l).filter (fun x => x ≠ 0) = m := by
    rw [hml, List.filter_append]
    have h1 : m.filter (fun x => x ≠ 0) = m := List.filter_eq_self.mpr (by
      intro x hx
      simpa using hm_ne x hx)
    rw [h1, filter_replicate_zero, List.append_nil]
  have hnm_m : hasMergeablePair m = false := by
    apply hasMergeablePair_append m (List.replicate (4 - m.length) 0)
    rw [← hml, ← hunpack]
    exact hnm
  have hscan2 : Board.mergeScan m = m := mergeScan_fixed m hm_ne hnm_m
  calc Board.row_left (Board.row_left r)
      = Board.packRow (Board.move_left (Board.unpackRow (Board.row_left r))) := rfl
    _ = Board.packRow (Board.move_left (Board.move_left l)) := by rw [hunpack]
    _ = Board.packRow (Board.move_left l) := by
        have hml2 : Board.move_left (Board.move_left l)
            = Board.mergeScan ((Board.move_left l).filter (fun x => x ≠ 0))
              ++ List.replicate
                (4 - (Board.mergeScan ((Board.move_left l).filter (fun x => x ≠ 0))).length)
                0 := rfl
        rw [hml2, hfilter2, hscan2, ← hml]
    _ = Board.row_left r := rfl

theorem C2_amended_witness :
    ((0x1100 : Nat) ≤ 65535
        ∧ hasMergeablePair (Board.unpackRow (Board.row_left 0x1100)) = false)
      ∧ Board.row_left (Board.row_left 0x1100) = Board.row_left 0x1100 :=
  ⟨⟨by decide, by decide⟩, C2_amended 0x1100 (by decide) (by decide)⟩

/-- C7 (counterexample): the chance layer does not always expand over
the empty cells: `expectimax` returns the heuristic evaluation whenever
there are no valid moves, even at a chance node of positive depth over a
state with empty cells. The zero state has 16 empty cells but no valid
move, so `expectimax 0 1 chance` is the evaluation of the zero state,
not the weighted sum over tile placements. -/
theorem C7_counterexample :
    Board.get_empty_tiles 0 ≠ []
      ∧ Players.expectimax 0 1 false = Players.evaluate_state 0
      ∧ Players.expectimax 0 1 false
        ≠ ((Board.get_empty_tiles 0).map (fun rc =>
            (1 / ((Board.get_empty_tiles 0).length : ℚ)) * (9 / 10)
              * Players.expectimax (Players.place 0 rc.1 rc.2 1) 0 true
            + (1 / ((Board.get_empty_tiles 0).length : ℚ)) * (1 / 10)
              * Players.expectimax (Players.place 0 rc.1 rc.2 2) 0 true)).sum := by
  refine ⟨by decide, rfl, by with_unfolding_all decide⟩

/-- C7 (amended): on a 64-bit state with at least one valid move and at
least one empty cell, a chance-layer node evaluates to the expectation
over every empty cell and both tile outcomes (probability 9/10 for
exponent 1 and 1/10 for exponent 2, each cell weighted 1/n), where the
placed state is the successful `set_tile` result; the search returns the
heuristic evaluation at depth 0, whenever there are no valid moves (in
either layer), and at a chance layer without empty cells. -/
theorem C7_amended (s d : Nat) (hs : s < 2 ^ 64) :
    ((Board.get_valid_move_actions s ≠ [] ∧ Board.get_empty_tiles s ≠ []) →
      (∀ rc ∈ Board.get_empty_tiles s, ∀ v : Nat, v = 1 ∨ v = 2 →
          Board.set_tile s rc.1 rc.2 v = .ok (Players.place s rc.1 rc.2 v))
      ∧ Players.expectimax s (d + 1) false
          = ((Board.get_empty_tiles s).map (fun rc =>
              (1 / ((Board.get_empty_tiles s).length : ℚ)) * (9 / 10)
                * Players.expectimax (Players.place s rc.1 rc.2 1) d true
              + (1 / ((Board.get_empty_tiles s).length : ℚ)) * (1 / 10)
                * Players.expectimax (Players.place s rc.1 rc.2 2) d true)).sum)
    ∧ (∀ b : Bool, Players.expectimax s 0 b = Players.evaluate_state s)
    ∧ (Board.get_valid_move_actions s = [] →
        ∀ (n : Nat) (b : Bool), Players.expectimax s n b = Players.evaluate_state s)
    ∧ (Board.get_empty_tiles s = [] →
        Players.expectimax s (d + 1) false = Players.evaluate_state s) := by
  refine ⟨?_, fun b => rfl, ?_, ?_⟩
  · rintro ⟨hmv, hemp⟩
    constructor
    · rintro ⟨r, c⟩ hrc v hv
      obtain ⟨hr, hc, h0⟩ := (get_empty_tiles_mem s r c).mp hrc
      have hv15 : v ≤ 15 := by rcases hv with rfl | rfl <;> omega
      show Board.set_tile s r c v = .ok (Players.place s r c v)
      have hset : Board.set_tile s r c v
          = .ok (s ||| ((v : Int).toNat
              <<< ((((3 - ((r : Int)).toNat) * 4 + (3 - ((c : Int)).toNat)) * 4)))) := by
        simp only [Board.set_tile]
        rw [if_neg (by omega), if_neg (by omega), if_neg (by omega),
          if_neg (fun hne => hne h0)]
      have hplace : Players.place s r c v
          = s ||| ((v : Int).toNat
              <<< ((((3 - ((r : Int)).toNat) * 4 + (3 - ((c : Int)).toNat)) * 4))) := by
        unfold Players.place
        rw [hset]
      rw [hset, hplace]
    · obtain ⟨m, ms, hm⟩ := List.exists_cons_of_ne_nil hmv
      obtain ⟨e, es, he⟩ := List.exists_cons_of_ne_nil hemp
      simp only [Players.expectimax, hm, he]
      simp
  · intro hmv n b
    cases n with
    | zero => rfl
    | succ k => simp [Players.expectimax, hmv]
  · intro hemp
    rcases hh : Board.get_valid_move_actions s with _ | ⟨m, ms⟩
    · simp [Players.expectimax, hh]
    · simp [Players.expectimax, hh, hemp]

theorem C7_amended_witness :
    Players.expectimax 0x1100000000000000 1 false
      = ((Board.get_empty_tiles 0x1100000000000000).map (fun rc =>
          (1 / ((Board.get_empty_tiles 0x1100000000000000).length : ℚ)) * (9 / 10)
            * Players.expectimax (Players.place 0x1100000000000000 rc.1 rc.2 1) 0 true
          + (1 / ((Board.get_empty_tiles 0x1100000000000000).length : ℚ)) * (1 / 10)
            * Players.expectimax (Players.place 0x1100000000000000 rc.1 rc.2 2) 0 true)).sum :=
  ((C7_amended 0x1100000000000000 0 (by norm_num)).1 ⟨by decide, by decide⟩).2

/-- C8 (counterexample): depth-0 expectimax does not reproduce the
heuristic player's choice: the two evaluation functions use different
monotonicity weights (470 vs 47). On the real state `0x0011000000000000`
(top row exponents `[0,0,1,1]`) the heuristic player picks LEFT while
the depth-0 expectimax player picks DOWN. -/
theorem C8_counterexample :
    Board.get_valid_move_actions 0x0011000000000000 ≠ []
      ∧ Players.expectimax_choose_action 0
          (Board.get_valid_move_actions 0x0011000000000000)
        ≠ Players.heuristic_choose_action
          (Board.get_valid_move_actions 0x0011000000000000) :=
  ⟨by decide, by with_unfolding_all decide⟩

set_option maxRecDepth 4096 in
/-- The accumulator of `expectimax_choose_action` at depth 0 follows the
first-maximal fold over the player's own evaluation. -/
theorem expectimax_choose_fold (xs : List (Action × Nat)) : ∀ b : Action × Nat,
    xs.foldl
      (fun acc p =>
        let value := Players.expectimax p.2 0 false
        match acc with
        | (some best, some best_value) =>
          if best_value < value then (some p, some value) else (some best, some best_value)
        | _ => (some p, some value))
      (some b, some (Players.evaluate_state b.2))
    = (some (xs.foldl (fun best p =>
          if Players.evaluate_state best.2 < Players.evaluate_state p.2 then p else best) b),
        some (Players.evaluate_state (xs.foldl (fun best p =>
          if Players.evaluate_state best.2 < Players.evaluate_state p.2 then p else best) b).2)) := by
  induction xs with
  | nil => intro b; rfl
  | cons p t ih =>
    intro b
    simp only [List.foldl_cons]
    show t.foldl _
        (if Players.evaluate_state b.2 < Players.evaluate_state p.2
          then (some p, some (Players.evaluate_state p.2))
          else (some b, some (Players.evaluate_state b.2))) = _
    by_cases h : Players.evaluate_state b.2 < Players.evaluate_state p.2
    · rw [if_pos h, if_pos h]
      exact ih p
    · rw [if_neg h, if_neg h]
      exact ih b

/-- C8 (amended): on every non-empty list of valid moves, the depth-0
expectimax player picks the first element maximising its own evaluation
function (`ExpectimaxPlayer.evaluate_state`, monotonicity weight 470),
i.e. Python `max` with that key; it coincides with the HeuristicPlayer
(weight 47) only when the two weightings agree on the argmax. -/
theorem C8_amended (x : Action × Nat) (xs : List (Action × Nat)) :
    Players.expectimax_choose_action 0 (x :: xs)
      = Players.max_by Players.evaluate_state (x :: xs) :=
  (congrArg Prod.fst (expectimax_choose_fold xs x)).trans rfl

end Game2048
